import Mathlib

/-!
Verification of the phylorian repository (python sources: `likelihood.py`,
`h20.py`, `bounded_while_loop.py`) against its natural-language specification.

The python sources are shallowly embedded below.  Machine floats are modelled
by real numbers (`ℝ`); `jnp` arrays are modelled by index functions; fallible
python code (the `ValueError`s of `bounded_while_loop`) is modelled by
`Option`.  Comments on each definition point to the python function it embeds.
-/

namespace Phylorian

open scoped Classical

/-! ## bounded_while_loop.py

`bounded_optimize` iterates `update_fun`/`score_fun` under a hard step cap,
tracking `(prev_score, (current_score, current_state), (best_score, best_state))`.
Scores are floats; the initial `prev_score` is `-jnp.inf`, which we model with
`WithBot ℝ` (`⊥` standing for `-inf`; all scores produced by `score_fun` are
finite reals).
-/

/-- The state threaded through the optimizer loop:
`(prev_score, (current_score, current_state), (best_score, best_state))`. -/
def OptArgs (S : Type) : Type := WithBot ℝ × (ℝ × S) × (ℝ × S)

/-- `cond_fun` of `bounded_optimize`:
`current_score > prev_score  AND  (prev_score == -inf  OR  inc > min_inc)`
where `inc = (current_score - prev_score) / |prev_score|`.
When `prev_score = -inf` the float `inc` is `NaN` and `NaN > min_inc` is
`False`; the disjunct `prev_score == -inf` makes the condition independent of
`inc` in that case, so reading the `⊥` case of `prev_score` as `0` in `inc`
(via `WithBot.unbot' 0`) does not change the condition's value. -/
noncomputable def cond_fun {S : Type} (min_inc : ℝ) (args : OptArgs S) : Prop :=
  let inc := (args.2.1.1 - args.1.unbot' 0) / |args.1.unbot' 0|
  (args.1 < (args.2.1.1 : WithBot ℝ)) ∧ (args.1 = ⊥ ∨ inc > min_inc)

/-- `body_fun` of `bounded_optimize`: shift current score into `prev_score`,
apply `update_fun`, re-score, and keep the best `(score, state)` pair
(`lax.select` applied componentwise with one scalar predicate is an
if-then-else on the pair). -/
noncomputable def body_fun {S : Type} (score_fun : S → ℝ) (update_fun : S → S)
    (args : OptArgs S) : OptArgs S :=
  let prev_score := args.2.1.1
  let current_state := update_fun args.2.1.2
  let current_score := score_fun current_state
  let best := if args.2.2.1 < current_score then (current_score, current_state) else args.2.2
  ((prev_score : WithBot ℝ), (current_score, current_state), best)

/-- `_while_loop(cond_fun, body_fun, (pred, val), max_steps)`: at `max_steps = 1`
it runs the body once, keeping the result only if `pred` held, and re-evaluates
the condition; otherwise it runs itself twice at `max_steps // 2`, each call
gated on the stored predicate (`lax.scan` of length 2 over `_scan_fn`).
Callers only ever pass a positive power of two; we let `max_steps = 0` fall
into the `max_steps = 1` base case, which the python never reaches. -/
noncomputable def whileLoopRec {V : Type} (cond : V → Prop) (body : V → V)
    (max_steps : ℕ) (data : Prop × V) : Prop × V :=
  if max_steps ≤ 1 then
    let newVal := if data.1 then body data.2 else data.2
    (cond newVal, newVal)
  else
    let call : Prop × V → Prop × V :=
      fun d => if d.1 then whileLoopRec cond body (max_steps / 2) d else d
    call (call data)
termination_by max_steps
decreasing_by exact Nat.div_lt_self (by omega) (by omega)

/-- `bounded_while_loop(cond_fun, body_fun, init_val, max_steps)`.
The two `ValueError`s (negative `max_steps`, `max_steps` not a power of two)
are modelled by `none`.  Python's `max_steps & (max_steps - 1)` on a positive
int is `Nat` bitwise and. -/
noncomputable def bounded_while_loop {V : Type} (cond : V → Prop) (body : V → V)
    (init_val : V) (max_steps : ℤ) : Option V :=
  if max_steps < 0 then none
  else if max_steps = 0 then some init_val
  else if max_steps.toNat &&& (max_steps.toNat - 1) ≠ 0 then none
  else some (whileLoopRec cond body max_steps.toNat (cond init_val, init_val)).2

/-- The initial loop state of `bounded_optimize`:
`(-jnp.inf, init_score_state, init_score_state)` with
`init_score_state = (score_fun(init_state), init_state)`. -/
noncomputable def initArgs {S : Type} (score_fun : S → ℝ) (init_state : S) : OptArgs S :=
  (⊥, (score_fun init_state, init_state), (score_fun init_state, init_state))

/-- `bounded_optimize(score_fun, update_fun, init_state, max_steps, min_inc)`:
returns element `[2]` (the best `(score, state)` pair) of the final loop state. -/
noncomputable def bounded_optimize {S : Type} (score_fun : S → ℝ) (update_fun : S → S)
    (init_state : S) (max_steps : ℤ) (min_inc : ℝ) : Option (ℝ × S) :=
  (bounded_while_loop (cond_fun min_inc) (body_fun score_fun update_fun)
      (initArgs score_fun init_state) max_steps).map (fun v => v.2.2)

/-! ### Reference semantics: a plain bounded while loop

`iterLoop cond body n v` applies `body` up to `n` times, stopping as soon as
`cond` fails.  We prove `whileLoopRec` at a power of two computes exactly this,
which is the semantic content of the recursive-halving structure. -/

noncomputable def iterLoop {V : Type} (cond : V → Prop) (body : V → V) : ℕ → V → V
  | 0, v => v
  | n + 1, v => if cond v then iterLoop cond body n (body v) else v

theorem iterLoop_stop {V : Type} {cond : V → Prop} {body : V → V} {v : V}
    (h : ¬ cond v) : ∀ n, iterLoop cond body n v = v := by
  intro n
  cases n with
  | zero => rfl
  | succ n => simp [iterLoop, h]

theorem iterLoop_add {V : Type} (cond : V → Prop) (body : V → V) (a b : ℕ) (v : V) :
    iterLoop cond body (a + b) v = iterLoop cond body b (iterLoop cond body a v) := by
  induction a generalizing v with
  | zero => simp [iterLoop]
  | succ a ih =>
      by_cases h : cond v
      · have : a + 1 + b = (a + b) + 1 := by omega
        rw [this]
        simp only [iterLoop, if_pos h]
        exact ih (body v)
      · rw [iterLoop_stop h, iterLoop_stop h, iterLoop_stop h]

theorem iterLoop_succ_last {V : Type} (cond : V → Prop) (body : V → V) (n : ℕ) (v : V) :
    iterLoop cond body (n + 1) v =
      (if cond (iterLoop cond body n v) then body (iterLoop cond body n v)
       else iterLoop cond body n v) := by
  rw [iterLoop_add cond body n 1]
  simp [iterLoop]

/-- At a power of two, the recursive-halving loop agrees with the plain bounded
while loop, predicate component included. -/
theorem whileLoopRec_pow {V : Type} (cond : V → Prop) (body : V → V) (k : ℕ) (v : V) :
    whileLoopRec cond body (2 ^ k) (cond v, v) =
      (cond (iterLoop cond body (2 ^ k) v), iterLoop cond body (2 ^ k) v) := by
  induction k generalizing v with
  | zero =>
      rw [whileLoopRec]
      simp [iterLoop]
  | succ k ih =>
      have h2 : ¬ (2 ^ (k + 1) ≤ 1) := by
        have : 2 ≤ 2 ^ (k + 1) := by
          calc 2 = 2 ^ 1 := by norm_num
          _ ≤ 2 ^ (k + 1) := Nat.pow_le_pow_right (by norm_num) (by omega)
        omega
      have hdiv : 2 ^ (k + 1) / 2 = 2 ^ k := by
        rw [pow_succ]
        exact Nat.mul_div_cancel _ (by norm_num)
      have hstep : whileLoopRec cond body (2 ^ (k + 1)) (cond v, v) =
          (fun d : Prop × V => if d.1 then whileLoopRec cond body (2 ^ k) d else d)
          ((fun d : Prop × V => if d.1 then whileLoopRec cond body (2 ^ k) d else d)
            (cond v, v)) := by
        rw [whileLoopRec, if_neg h2, hdiv]
      have hcall : ∀ w : V,
          (if (cond w : Prop) then whileLoopRec cond body (2 ^ k) (cond w, w)
           else (cond w, w)) =
          (cond (iterLoop cond body (2 ^ k) w), iterLoop cond body (2 ^ k) w) := by
        intro w
        by_cases hw : cond w
        · rw [if_pos hw, ih]
        · rw [if_neg hw, iterLoop_stop hw]
      rw [hstep]
      refine Eq.trans
        (congrArg (fun d : Prop × V => if d.1 then whileLoopRec cond body (2 ^ k) d else d)
          (hcall v)) ?_
      refine Eq.trans (hcall (iterLoop cond body (2 ^ k) v)) ?_
      rw [← iterLoop_add cond body (2 ^ k) (2 ^ k) v,
        show (2 : ℕ) ^ k + 2 ^ k = 2 ^ (k + 1) from by rw [pow_succ]; ring]

/-! ### The power-of-two check `max_steps & (max_steps - 1) == 0` -/

theorem pow_land_pred (k : ℕ) : 2 ^ k &&& (2 ^ k - 1) = 0 := by
  apply Nat.eq_of_testBit_eq
  intro i
  rw [Nat.testBit_and, Nat.zero_testBit]
  by_cases h : i = k
  · subst h
    simp [Nat.testBit_two_pow_sub_one]
  · simp [Nat.testBit_two_pow_of_ne (Ne.symm h)]

theorem eq_pow_of_land_pred_eq_zero {n : ℕ} (hn : 1 ≤ n) (h : n &&& (n - 1) = 0) :
    ∃ k, n = 2 ^ k := by
  refine ⟨Nat.log 2 n, ?_⟩
  set k := Nat.log 2 n with hk
  have h1 : 2 ^ k ≤ n := Nat.pow_log_le_self 2 (by omega)
  have h2 : n < 2 ^ (k + 1) := Nat.lt_pow_succ_log_self (by norm_num) n
  by_contra hne
  have hlt : 2 ^ k < n := lt_of_le_of_ne h1 (fun e => hne e.symm)
  have ht : ∀ m, 2 ^ k ≤ m → m < 2 ^ (k + 1) → m.testBit k = true := by
    intro m hm1 hm2
    rw [Nat.testBit_to_div_mod]
    have h2' : m < 2 ^ k * 2 := by
      rw [← pow_succ]; exact hm2
    have hd : m / 2 ^ k = 1 := Nat.div_eq_of_lt_le (by omega) (by omega)
    simp [hd]
  have hb1 : n.testBit k = true := ht n h1 h2
  have hb2 : (n - 1).testBit k = true := ht (n - 1) (by omega) (by omega)
  have hc := congrArg (fun m => m.testBit k) h
  simp only [Nat.testBit_and, hb1, hb2, Nat.zero_testBit, Bool.and_self] at hc
  exact Bool.noConfusion hc

/-! ### Characterization of a successful `bounded_optimize` run -/

/-- The loop-state trajectory of a `bounded_optimize` run:
`optIter … n` is the loop state after `n` (gated) iterations. -/
noncomputable def optIter {S : Type} (score_fun : S → ℝ) (update_fun : S → S)
    (init_state : S) (min_inc : ℝ) (n : ℕ) : OptArgs S :=
  iterLoop (cond_fun min_inc) (body_fun score_fun update_fun) n
    (initArgs score_fun init_state)

theorem optIter_succ {S : Type} (score_fun : S → ℝ) (update_fun : S → S)
    (init_state : S) (min_inc : ℝ) (n : ℕ) :
    optIter score_fun update_fun init_state min_inc (n + 1) =
      (if cond_fun min_inc (optIter score_fun update_fun init_state min_inc n)
       then body_fun score_fun update_fun (optIter score_fun update_fun init_state min_inc n)
       else optIter score_fun update_fun init_state min_inc n) :=
  iterLoop_succ_last _ _ n _

/-- When `bounded_optimize` returns a value, `max_steps` was `0` (and the value
is the initial pair) or a power of two `2 ^ k` (and the value is the best pair
of the trajectory after `2 ^ k` iterations). -/
theorem bounded_optimize_spec {S : Type} (score_fun : S → ℝ) (update_fun : S → S)
    (init_state : S) (max_steps : ℤ) (min_inc : ℝ) {r : ℝ × S}
    (hm : bounded_optimize score_fun update_fun init_state max_steps min_inc = some r) :
    (max_steps = 0 ∧ r = (score_fun init_state, init_state)) ∨
    (∃ k : ℕ, max_steps = 2 ^ k ∧
      r = (optIter score_fun update_fun init_state min_inc (2 ^ k)).2.2) := by
  unfold bounded_optimize bounded_while_loop at hm
  by_cases h0 : max_steps < 0
  · rw [if_pos h0] at hm; simp at hm
  rw [if_neg h0] at hm
  by_cases h1 : max_steps = 0
  · rw [if_pos h1] at hm
    simp only [Option.map_some'] at hm
    exact Or.inl ⟨h1, (Option.some_inj.mp hm).symm⟩
  rw [if_neg h1] at hm
  by_cases h2 : max_steps.toNat &&& (max_steps.toNat - 1) ≠ 0
  · rw [if_pos h2] at hm; simp at hm
  rw [if_neg h2] at hm
  push_neg at h2
  have hpos : 1 ≤ max_steps.toNat := by omega
  obtain ⟨k, hk⟩ := eq_pow_of_land_pred_eq_zero hpos h2
  refine Or.inr ⟨k, ?_, ?_⟩
  · have hcast : (max_steps.toNat : ℤ) = max_steps := Int.toNat_of_nonneg (by omega)
    rw [← hcast, hk]
    push_cast
    ring
  · rw [hk, whileLoopRec_pow] at hm
    simp only [Option.map_some'] at hm
    exact (Option.some_inj.mp hm).symm

/-! ### Trajectory invariants for the best score/state -/

theorem optIter_cur_le_best {S : Type} (score_fun : S → ℝ) (update_fun : S → S)
    (init_state : S) (min_inc : ℝ) :
    ∀ n, (optIter score_fun update_fun init_state min_inc n).2.1.1 ≤
      (optIter score_fun update_fun init_state min_inc n).2.2.1 := by
  intro n
  induction n with
  | zero => exact le_refl _
  | succ n ih =>
      rw [optIter_succ]
      by_cases hc : cond_fun min_inc (optIter score_fun update_fun init_state min_inc n)
      · rw [if_pos hc]
        unfold body_fun
        by_cases hb : (optIter score_fun update_fun init_state min_inc n).2.2.1 <
            score_fun (update_fun (optIter score_fun update_fun init_state min_inc n).2.1.2)
        · simp only [if_pos hb]
          exact le_refl _
        · simp only [if_neg hb]
          exact le_of_not_lt hb
      · rw [if_neg hc]
        exact ih

theorem optIter_best_mono {S : Type} (score_fun : S → ℝ) (update_fun : S → S)
    (init_state : S) (min_inc : ℝ) {n m : ℕ} (hnm : n ≤ m) :
    (optIter score_fun update_fun init_state min_inc n).2.2.1 ≤
      (optIter score_fun update_fun init_state min_inc m).2.2.1 := by
  induction m with
  | zero =>
      have : n = 0 := by omega
      subst this; exact le_refl _
  | succ m ih =>
      rcases Nat.lt_or_ge n (m + 1) with h | h
      · refine le_trans (ih (by omega)) ?_
        rw [optIter_succ]
        by_cases hc : cond_fun min_inc (optIter score_fun update_fun init_state min_inc m)
        · rw [if_pos hc]
          unfold body_fun
          by_cases hb : (optIter score_fun update_fun init_state min_inc m).2.2.1 <
              score_fun (update_fun (optIter score_fun update_fun init_state min_inc m).2.1.2)
          · simp only [if_pos hb]
            exact le_of_lt hb
          · simp only [if_neg hb]
            exact le_refl _
        · rw [if_neg hc]
      · have : n = m + 1 := by omega
        subst this; exact le_refl _

theorem optIter_best_observed {S : Type} (score_fun : S → ℝ) (update_fun : S → S)
    (init_state : S) (min_inc : ℝ) :
    ∀ n, ∃ j ≤ n, (optIter score_fun update_fun init_state min_inc n).2.2 =
      (optIter score_fun update_fun init_state min_inc j).2.1 := by
  intro n
  induction n with
  | zero => exact ⟨0, le_refl _, rfl⟩
  | succ n ih =>
      by_cases hc : cond_fun min_inc (optIter score_fun update_fun init_state min_inc n)
      · by_cases hb : (optIter score_fun update_fun init_state min_inc n).2.2.1 <
            score_fun (update_fun (optIter score_fun update_fun init_state min_inc n).2.1.2)
        · refine ⟨n + 1, le_refl _, ?_⟩
          rw [optIter_succ, if_pos hc]
          unfold body_fun
          simp only [if_pos hb]
        · obtain ⟨j, hj, hobs⟩ := ih
          refine ⟨j, by omega, ?_⟩
          rw [optIter_succ, if_pos hc]
          unfold body_fun
          simp only [if_neg hb]
          exact hobs
      · obtain ⟨j, hj, hobs⟩ := ih
        refine ⟨j, by omega, ?_⟩
        rw [optIter_succ, if_neg hc]
        exact hobs

/-- Concrete `bounded_optimize` run used by the witnesses: constant score `0`,
`update = id`, one step. -/
theorem run_one_eval :
    bounded_optimize (fun _ : ℝ => (0 : ℝ)) id (0 : ℝ) 1 1 = some (0, 0) := by
  have h0 : cond_fun (1 : ℝ) (initArgs (fun _ : ℝ => (0 : ℝ)) 0) :=
    ⟨WithBot.bot_lt_coe _, Or.inl rfl⟩
  unfold bounded_optimize bounded_while_loop
  rw [if_neg (by decide : ¬ (1 : ℤ) < 0), if_neg (by decide : ¬ (1 : ℤ) = 0),
    if_neg (by decide : ¬ ((1 : ℤ).toNat &&& ((1 : ℤ).toNat - 1) ≠ 0))]
  rw [whileLoopRec, if_pos (by norm_num : (1 : ℤ).toNat ≤ 1)]
  simp only [eq_true h0, if_true, ite_true, Option.map_some']
  norm_num [body_fun, initArgs]

/-! ### Claims C6, C7, C8 -/

/-- Claim C6: for every score function, update function, initial state,
threshold, and `maxSteps` on which `bounded_optimize` returns, the returned
best score is at least the initial state's score and at least the score of
every loop state visited during the run, and the returned `(score, state)`
pair is one actually observed during the run (the initial pair included). -/
theorem optimize_best_dominates_run {S : Type} (score_fun : S → ℝ) (update_fun : S → S)
    (init_state : S) (max_steps : ℤ) (min_inc : ℝ) (b : ℝ) (s : S)
    (hm : bounded_optimize score_fun update_fun init_state max_steps min_inc = some (b, s)) :
    score_fun init_state ≤ b ∧
    (∀ n ≤ max_steps.toNat,
      (optIter score_fun update_fun init_state min_inc n).2.1.1 ≤ b) ∧
    (∃ n ≤ max_steps.toNat,
      (b, s) = (optIter score_fun update_fun init_state min_inc n).2.1) := by
  rcases bounded_optimize_spec score_fun update_fun init_state max_steps min_inc hm with
    ⟨h0, hr⟩ | ⟨k, hk, hr⟩
  · subst h0
    have hb : b = score_fun init_state := congrArg Prod.fst hr
    have hs : s = init_state := congrArg Prod.snd hr
    subst hb; subst hs
    refine ⟨le_refl _, ?_, 0, le_refl _, rfl⟩
    intro n hn
    have : n = 0 := by omega
    subst this
    exact le_refl _
  · have hM : max_steps.toNat = 2 ^ k := by
      have hc : max_steps = ((2 ^ k : ℕ) : ℤ) := by rw [hk]; push_cast; ring
      rw [hc, Int.toNat_ofNat]
    rw [hM]
    have hbval : b = (optIter score_fun update_fun init_state min_inc (2 ^ k)).2.2.1 :=
      congrArg Prod.fst hr
    refine ⟨?_, ?_, ?_⟩
    · rw [hbval]
      exact optIter_best_mono score_fun update_fun init_state min_inc (Nat.zero_le _)
    · intro n hn
      rw [hbval]
      exact le_trans (optIter_cur_le_best score_fun update_fun init_state min_inc n)
        (optIter_best_mono score_fun update_fun init_state min_inc hn)
    · obtain ⟨j, hj, hobs⟩ :=
        optIter_best_observed score_fun update_fun init_state min_inc (2 ^ k)
      exact ⟨j, hj, hr.trans hobs⟩

/-- Witness for C6 on a concrete one-step run. -/
theorem optimize_best_dominates_run_witness :
    (fun _ : ℝ => (0 : ℝ)) 0 ≤ 0 ∧
    (∀ n ≤ (1 : ℤ).toNat, (optIter (fun _ : ℝ => (0 : ℝ)) id 0 1 n).2.1.1 ≤ 0) ∧
    (∃ n ≤ (1 : ℤ).toNat, ((0 : ℝ), (0 : ℝ)) = (optIter (fun _ : ℝ => (0 : ℝ)) id 0 1 n).2.1) :=
  optimize_best_dominates_run (fun _ : ℝ => (0 : ℝ)) id 0 1 1 0 0 run_one_eval

/-- No power of two equals 3 (used by the C7 witness). -/
theorem three_not_pow_two : ¬ ∃ k : ℕ, (3 : ℤ) = 2 ^ k := by
  rintro ⟨k, hk⟩
  match k, hk with
  | 0, hk => norm_num at hk
  | 1, hk => norm_num at hk
  | (k + 2), hk =>
      have h4 : (4 : ℤ) ≤ 2 ^ (k + 2) := by
        calc (4 : ℤ) = 2 ^ 2 := by norm_num
        _ ≤ 2 ^ (k + 2) := pow_le_pow_right₀ (by norm_num) (by omega)
      omega

/-- Claim C7: `bounded_optimize` with `maxSteps = 0` returns the initial state
unchanged, paired with its own score; with `maxSteps` nonzero and not a power
of two (negative values included) it fails with an error before any iteration. -/
theorem optimize_zero_and_nonpow :
    (∀ (S : Type) (score_fun : S → ℝ) (update_fun : S → S) (init_state : S) (min_inc : ℝ),
      bounded_optimize score_fun update_fun init_state 0 min_inc =
        some (score_fun init_state, init_state)) ∧
    (∀ (S : Type) (score_fun : S → ℝ) (update_fun : S → S) (init_state : S) (min_inc : ℝ)
      (max_steps : ℤ), max_steps ≠ 0 → (¬ ∃ k : ℕ, max_steps = 2 ^ k) →
      bounded_optimize score_fun update_fun init_state max_steps min_inc = none) := by
  constructor
  · intro S score_fun update_fun init_state min_inc
    unfold bounded_optimize bounded_while_loop
    rw [if_neg (by decide : ¬ (0 : ℤ) < 0), if_pos rfl]
    rfl
  · intro S score_fun update_fun init_state min_inc max_steps hne hnp
    unfold bounded_optimize bounded_while_loop
    by_cases h0 : max_steps < 0
    · rw [if_pos h0]; rfl
    rw [if_neg h0, if_neg hne]
    have hland : max_steps.toNat &&& (max_steps.toNat - 1) ≠ 0 := by
      intro hz
      obtain ⟨k, hk⟩ := eq_pow_of_land_pred_eq_zero (by omega) hz
      refine hnp ⟨k, ?_⟩
      have hcast : (max_steps.toNat : ℤ) = max_steps := Int.toNat_of_nonneg (by omega)
      rw [← hcast, hk]
      push_cast
      ring
    rw [if_pos hland]
    rfl

/-- Witness for C7: `maxSteps = 0` and the non-power-of-two `maxSteps = 3`. -/
theorem optimize_zero_and_nonpow_witness :
    bounded_optimize (fun _ : ℝ => (0 : ℝ)) id (0 : ℝ) 0 1 = some (0, 0) ∧
    bounded_optimize (fun _ : ℝ => (0 : ℝ)) id (0 : ℝ) 3 1 = none :=
  ⟨optimize_zero_and_nonpow.1 ℝ (fun _ => 0) id 0 1,
   optimize_zero_and_nonpow.2 ℝ (fun _ => 0) id 0 1 3 (by decide) three_not_pow_two⟩

/-- Claim C8: whenever `bounded_optimize` runs its loop (`maxSteps ≥ 1` and the
run returns), the very first iteration executes regardless of the threshold
`min_inc`: the run equals the trajectory `optIter`, whose first step is an
ungated application of `body_fun` (because the initial `prev_score` is `-inf`,
the continue condition holds at the initial state), so the update function is
applied at least once. -/
theorem optimize_first_iteration_executes {S : Type} (score_fun : S → ℝ)
    (update_fun : S → S) (init_state : S) (min_inc : ℝ) (max_steps : ℤ) (r : ℝ × S)
    (hm : bounded_optimize score_fun update_fun init_state max_steps min_inc = some r)
    (h1 : 1 ≤ max_steps) :
    r = (optIter score_fun update_fun init_state min_inc max_steps.toNat).2.2 ∧
    cond_fun min_inc (initArgs score_fun init_state) ∧
    optIter score_fun update_fun init_state min_inc 1 =
      body_fun score_fun update_fun (initArgs score_fun init_state) ∧
    (optIter score_fun update_fun init_state min_inc 1).2.1.2 = update_fun init_state := by
  have hcond : cond_fun min_inc (initArgs score_fun init_state) :=
    ⟨WithBot.bot_lt_coe _, Or.inl rfl⟩
  have hstep : optIter score_fun update_fun init_state min_inc 1 =
      body_fun score_fun update_fun (initArgs score_fun init_state) := by
    simp only [optIter, iterLoop, if_pos hcond]
  rcases bounded_optimize_spec score_fun update_fun init_state max_steps min_inc hm with
    ⟨h0, _⟩ | ⟨k, hk, hr⟩
  · omega
  · have hM : max_steps.toNat = 2 ^ k := by
      have hc : max_steps = ((2 ^ k : ℕ) : ℤ) := by rw [hk]; push_cast; ring
      rw [hc, Int.toNat_ofNat]
    rw [hM]
    exact ⟨hr, hcond, hstep, by rw [hstep]; rfl⟩

/-- Witness for C8 on a concrete one-step run. -/
theorem optimize_first_iteration_executes_witness :
    ((0 : ℝ), (0 : ℝ)) = (optIter (fun _ : ℝ => (0 : ℝ)) id 0 1 (1 : ℤ).toNat).2.2 ∧
    cond_fun 1 (initArgs (fun _ : ℝ => (0 : ℝ)) 0) ∧
    optIter (fun _ : ℝ => (0 : ℝ)) id 0 1 1 =
      body_fun (fun _ : ℝ => (0 : ℝ)) id (initArgs (fun _ : ℝ => (0 : ℝ)) 0) ∧
    (optIter (fun _ : ℝ => (0 : ℝ)) id 0 1 1).2.1.2 = id (0 : ℝ) :=
  optimize_first_iteration_executes (fun _ : ℝ => (0 : ℝ)) id 0 1 1 (0, 0)
    run_one_eval (by decide)

/-! ## likelihood.py

The substitution log-likelihood by Felsenstein pruning.  Arrays are modelled
by index functions: an alignment of shape `(R, C)` is `ℕ → ℕ → ℤ` together
with the bounds `R`, `C`; row/column indices outside the bounds are never read
by the algorithms below except where JAX's own out-of-bounds semantics
(clamping for gathers, wrap-around for negative indices) matter, which we
model explicitly.  The hidden-category axes `*H` are not modelled (the scalar
substitution-model case, `H = ()`).  `jnp.float32` arithmetic is modelled by
exact real arithmetic. -/

/-- `alignmentIsValid(alignment, alphabetSize)`: the two `assert`s
`all(alignment >= -1)` and `all(alignment < alphabetSize)`. -/
def alignmentIsValid (R C : ℕ) (alignment : ℕ → ℕ → ℤ) (alphabetSize : ℕ) : Prop :=
  (∀ r < R, ∀ c < C, -1 ≤ alignment r c) ∧
  (∀ r < R, ∀ c < C, alignment r c < (alphabetSize : ℤ))

/-- `treeIsValid(distanceToParent, parentIndex, alignmentRows)`: the three
`assert`s `all(distanceToParent >= 0)`, `all(parentIndex[1:] >= -1)`, and
`all(parentIndex <= arange(alignmentRows))`. -/
def treeIsValid (R : ℕ) (distanceToParent : ℕ → ℝ) (parentIndex : ℕ → ℤ) : Prop :=
  (∀ r < R, 0 ≤ distanceToParent r) ∧
  (∀ r, 1 ≤ r → r < R → -1 ≤ parentIndex r) ∧
  (∀ r < R, parentIndex r ≤ (r : ℤ))

/-- `jnp` array indexing: a negative index counts from the end of the axis. -/
def wrapIndex (R : ℕ) (i : ℤ) : ℕ := (if i < 0 then (R : ℤ) + i else i).toNat

/-- `jnp.max` over the alphabet axis. -/
noncomputable def jmax {A : ℕ} (f : Fin A → ℝ) : ℝ := ⨆ a, f a

/-- `tokenLookup = concatenate([ones(A)[None,:], eye(A)])` indexed at
`alignment + 1`: row `0` is all ones (the gap token `-1`), row `i ≥ 1` is the
standard basis vector `e_(i-1)`.  JAX clamps out-of-range gather indices, so
the index `tok + 1` is clamped into `[0, A]`. -/
noncomputable def tokenLookup (A : ℕ) (tok : ℤ) : Fin A → ℝ :=
  let i := max 0 (min (tok + 1) (A : ℤ))
  fun a => if i = 0 then 1 else if (a : ℤ) = i - 1 then 1 else 0

/-- The mutable state of the pruning loop in `subLogLikeForMatrices`:
the likelihood tensor (R, C, A) and the per-column log-normalizer (C). -/
@[ext]
structure PruneState (A : ℕ) where
  like : ℕ → ℕ → Fin A → ℝ
  logNorm : ℕ → ℝ

/-- One iteration of the pruning loop of `subLogLikeForMatrices` for a given
`child`: multiply the parent's likelihood row by
`einsum('ij,cj->ci', subMatrix[child], likelihood[child])`, then divide the
parent's row by its per-column maximum and add the log of that maximum to the
log-normalizer. -/
noncomputable def pruneStep {A : ℕ} (R : ℕ) (parentIndex : ℕ → ℤ)
    (subMatrix : ℕ → Matrix (Fin A) (Fin A) ℝ) (child : ℕ) (s : PruneState A) :
    PruneState A :=
  let parent : ℕ := wrapIndex R (parentIndex child)
  let msg : ℕ → Fin A → ℝ := fun c => (subMatrix child).mulVec (s.like child c)
  let mult : ℕ → Fin A → ℝ := fun c a => s.like parent c a * msg c a
  let maxLike : ℕ → ℝ := fun c => jmax (mult c)
  { like := fun r c a => if r = parent then mult c a / maxLike c else s.like r c a
    logNorm := fun c => s.logNorm c + Real.log (maxLike c) }

/-- `subLogLikeForMatrices(alignment, parentIndex, subMatrix, rootProb)`:
initialize the likelihood tensor from `tokenLookup[alignment+1]`, iterate
`pruneStep` for `child in range(R-1, 0, -1)`, and finish each column with
`log(einsum('ci,i->c', likelihood[0], rootProb))`.  The result is the
per-column log-likelihood, a function of the column index (columns are fully
independent; a shape `(R, C)` caller reads columns `< C`). -/
noncomputable def subLogLikeForMatrices {A : ℕ} (R : ℕ) (alignment : ℕ → ℕ → ℤ)
    (parentIndex : ℕ → ℤ) (subMatrix : ℕ → Matrix (Fin A) (Fin A) ℝ)
    (rootProb : Fin A → ℝ) : ℕ → ℝ :=
  let init : PruneState A :=
    { like := fun r c => tokenLookup A (alignment r c), logNorm := fun _ => 0 }
  let final := ((List.range' 1 (R - 1)).reverse).foldl
    (fun s child => pruneStep R parentIndex subMatrix child s) init
  fun c => final.logNorm c + Real.log (∑ a, final.like 0 c a * rootProb a)

/-- `computeSubMatrixForBranchLengths(distanceToParent, subRate)`:
`expm(einsum('ij,r->rij', subRate, distanceToParent))`, one matrix
exponential `expm(d_r · Q)` per branch. -/
noncomputable def computeSubMatrixForBranchLengths {A : ℕ} (distanceToParent : ℕ → ℝ)
    (subRate : Matrix (Fin A) (Fin A) ℝ) : ℕ → Matrix (Fin A) (Fin A) ℝ :=
  fun r => NormedSpace.exp ℝ (distanceToParent r • subRate)

/-- `subLogLike(alignment, distanceToParent, parentIndex, subRate, rootProb)`. -/
noncomputable def subLogLike {A : ℕ} (R : ℕ) (alignment : ℕ → ℕ → ℤ)
    (distanceToParent : ℕ → ℝ) (parentIndex : ℕ → ℤ)
    (subRate : Matrix (Fin A) (Fin A) ℝ) (rootProb : Fin A → ℝ) : ℕ → ℝ :=
  subLogLikeForMatrices R alignment parentIndex
    (computeSubMatrixForBranchLengths distanceToParent subRate) rootProb

/-- `padDimension(len, multiplier)`: next power of the multiplier;
the `multiplier == 2` case uses `1 << (len-1).bit_length()` (`Nat.size` is the
bit length). -/
noncomputable def padDimension (len : ℕ) (multiplier : ℝ) : ℤ :=
  if multiplier = 2 then ((1 <<< (len - 1).size : ℕ) : ℤ)
  else ⌈multiplier ^ ((⌈Real.log len / Real.log multiplier⌉ : ℤ) : ℝ)⌉

/-- With multiplier 2 the padded dimension is at least the unpadded one. -/
theorem le_padDimension_two (len : ℕ) : (len : ℤ) ≤ padDimension len 2 := by
  rw [padDimension, if_pos rfl]
  have h := Nat.lt_size_self (len - 1)
  have h2 : len ≤ 1 <<< (len - 1).size := by
    rw [Nat.shiftLeft_eq, one_mul]
    omega
  exact_mod_cast h2

/-- `padAlignment(alignment, parentIndex, distanceToParent, nRows, nCols, ...)`:
append all-gap self-parented zero-length rows up to `nRows` (when
`nRows > R`), then all-gap columns up to `nCols` (when `nCols > C`).  Returns
the padded arrays together with the resulting shape `(R', C')`.  When the
sizes are not given explicitly, the caller computes them with `padDimension`. -/
def padAlignment (R C : ℕ) (alignment : ℕ → ℕ → ℤ) (parentIndex : ℕ → ℤ)
    (distanceToParent : ℕ → ℝ) (nRows nCols : ℕ) :
    (ℕ → ℕ → ℤ) × (ℕ → ℤ) × (ℕ → ℝ) × ℕ × ℕ :=
  let alignment1 : ℕ → ℕ → ℤ :=
    if R < nRows then (fun r c => if r < R then alignment r c else -1) else alignment
  let parentIndex1 : ℕ → ℤ :=
    if R < nRows then (fun r => if r < R then parentIndex r else (r : ℤ)) else parentIndex
  let distance1 : ℕ → ℝ :=
    if R < nRows then (fun r => if r < R then distanceToParent r else 0) else distanceToParent
  let R1 := if R < nRows then nRows else R
  let alignment2 : ℕ → ℕ → ℤ :=
    if C < nCols then (fun r c => if c < C then alignment1 r c else -1) else alignment1
  let C1 := if C < nCols then nCols else C
  (alignment2, parentIndex1, distance1, R1, C1)

/-! ### The discretized branch-length cache -/

/-- `defaultDiscretizationParams = (1e-3, 10, 400)`: `tMin, tMax, nSteps`. -/
noncomputable def defaultDiscretizationParams : ℝ × ℝ × ℕ := (1e-3, 10, 400)

/-- `jnp.geomspace(a, b, n)`: `n` logarithmically spaced points from `a` to
`b` inclusive, `a * (b/a) ^ (i / (n-1))`. -/
noncomputable def geomspace (a b : ℝ) (n : ℕ) : List ℝ :=
  (List.range n).map (fun i : ℕ => a * (b / a) ^ ((i : ℝ) / ((n : ℝ) - 1)))

/-- `getDiscretizedTimes`: `concat([array([0]), geomspace(tMin, tMax, nSteps)])`. -/
noncomputable def getDiscretizedTimes (params : ℝ × ℝ × ℕ) : List ℝ :=
  0 :: geomspace params.1 params.2.1 params.2.2

/-- `jnp.digitize(x, bins)` (with the default `right=False`, for increasing
`bins`): the number of bin edges `≤ x`. -/
noncomputable def digitize (x : ℝ) (bins : List ℝ) : ℕ :=
  bins.countP (fun b => decide (b ≤ x))

/-- `discretizeBranchLength(t, (tMin, tMax, nSteps))`:
`where(t == 0, 0, 1 + digitize(clip(t, tMin, tMax), geomspace(tMin, tMax, nSteps)))`. -/
noncomputable def discretizeBranchLength (t : ℝ) (params : ℝ × ℝ × ℕ) : ℕ :=
  if t = 0 then 0
  else 1 + digitize (min (max t params.1) params.2.1) (geomspace params.1 params.2.1 params.2.2)

/-- `computeSubMatrixForDiscretizedTimes(subRate, params)`: the table of
substitution matrices `expm(t · Q)` at the `nSteps + 1` discretized times. -/
noncomputable def computeSubMatrixForDiscretizedTimes {A : ℕ}
    (subRate : Matrix (Fin A) (Fin A) ℝ) (params : ℝ × ℝ × ℕ) :
    List (Matrix (Fin A) (Fin A) ℝ) :=
  (getDiscretizedTimes params).map (fun t => NormedSpace.exp ℝ (t • subRate))

/-- `computeSubMatrixForDiscretizedBranchLengths(t, discreteTimeSubMatrix, params)`:
`discreteTimeSubMatrix[..., discretizeBranchLength(t), :, :]`.  JAX clamps an
out-of-bounds gather index into range, which we model by clamping the index to
the last entry of the table. -/
noncomputable def computeSubMatrixForDiscretizedBranchLengths {A : ℕ} (t : ℝ)
    (discreteTimeSubMatrix : List (Matrix (Fin A) (Fin A) ℝ)) (params : ℝ × ℝ × ℕ) :
    Matrix (Fin A) (Fin A) ℝ :=
  discreteTimeSubMatrix.getD
    (min (discretizeBranchLength t params) (discreteTimeSubMatrix.length - 1)) 0

/-! ### Claim C1: padding invariance of `subLogLike` -/

/-- A gap token `-1` looks up the all-ones row. -/
theorem tokenLookup_gap (A : ℕ) : tokenLookup A (-1) = fun _ => (1 : ℝ) := by
  funext a
  have h : max 0 (min ((-1 : ℤ) + 1) (A : ℤ)) = 0 := by omega
  simp [tokenLookup, h]

theorem jmax_const_one {A : ℕ} (hA : 0 < A) : jmax (fun _ : Fin A => (1 : ℝ)) = 1 := by
  haveI : Nonempty (Fin A) := Fin.pos_iff_nonempty.mp hA
  exact ciSup_const

/-- A padding row (self-parented, identity substitution matrix, all-ones
likelihood row) makes `pruneStep` a no-op: the message is the all-ones vector,
the per-column maximum is `1`, and `log 1 = 0`. -/
theorem pruneStep_padding {A : ℕ} (R' : ℕ) (par' : ℕ → ℤ)
    (subMat' : ℕ → Matrix (Fin A) (Fin A) ℝ) (child : ℕ) (s : PruneState A)
    (hA : 0 < A) (hpar : par' child = (child : ℤ)) (hsub : subMat' child = 1)
    (hones : ∀ c a, s.like child c a = 1) :
    pruneStep R' par' subMat' child s = s := by
  have hparent : wrapIndex R' (par' child) = child := by
    rw [hpar]
    unfold wrapIndex
    rw [if_neg (by omega)]
    omega
  ext r c a
  · simp only [pruneStep, hparent, hsub, Matrix.one_mulVec, hones, mul_one,
      jmax_const_one hA, div_one]
    by_cases hr : r = child
    · rw [if_pos hr, hr, hones]
    · rw [if_neg hr]
  · simp only [pruneStep, hparent, hsub, Matrix.one_mulVec, hones, mul_one,
      jmax_const_one hA, Real.log_one, add_zero]

/-- Folding `pruneStep` over a list of padding children leaves the state
unchanged. -/
theorem foldl_pruneStep_const {A : ℕ} (R' : ℕ) (par' : ℕ → ℤ)
    (subMat' : ℕ → Matrix (Fin A) (Fin A) ℝ) (hA : 0 < A) (s : PruneState A)
    (l : List ℕ)
    (hl : ∀ child ∈ l, par' child = (child : ℤ) ∧ subMat' child = 1 ∧
      ∀ c a, s.like child c a = 1) :
    l.foldl (fun s c => pruneStep R' par' subMat' c s) s = s := by
  induction l with
  | nil => rfl
  | cons x xs ih =>
      obtain ⟨h1, h2, h3⟩ := hl x (List.mem_cons_self x xs)
      have hx : pruneStep R' par' subMat' x s = s :=
        pruneStep_padding R' par' subMat' x s hA h1 h2 h3
      simp only [List.foldl_cons, hx]
      exact ih (fun child hc => hl child (List.mem_cons_of_mem _ hc))

/-- Agreement of two pruning states on the rows `< R` and columns `< C`. -/
def PruneRel {A : ℕ} (R C : ℕ) (s t : PruneState A) : Prop :=
  (∀ r < R, ∀ c < C, s.like r c = t.like r c) ∧ (∀ c < C, s.logNorm c = t.logNorm c)

/-- `pruneStep` preserves agreement on rows `< R` and columns `< C` when the
child is an original (non-padding) node with an in-range parent. -/
theorem pruneStep_rel {A : ℕ} {R R' C : ℕ} {par par' : ℕ → ℤ}
    {subMat subMat' : ℕ → Matrix (Fin A) (Fin A) ℝ} {child : ℕ}
    {s t : PruneState A}
    (hc1 : 1 ≤ child) (hc2 : child < R)
    (hpar' : par' child = par child)
    (hp0 : 0 ≤ par child) (hple : par child ≤ (child : ℤ))
    (hsub : subMat' child = subMat child)
    (hrel : PruneRel R C s t) :
    PruneRel R C (pruneStep R' par' subMat' child s) (pruneStep R par subMat child t) := by
  obtain ⟨hlike, hlog⟩ := hrel
  set p : ℕ := (par child).toNat with hp
  have hwrap' : wrapIndex R' (par' child) = p := by
    unfold wrapIndex
    rw [hpar', if_neg (by omega)]
  have hwrap : wrapIndex R (par child) = p := by
    unfold wrapIndex
    rw [if_neg (by omega)]
  have hpR : p < R := by omega
  constructor
  · intro r hr c hc
    funext a
    simp only [pruneStep, hwrap, hwrap']
    rw [hsub, hlike child hc2 c hc, hlike p hpR c hc]
    by_cases hrp : r = p
    · rw [if_pos hrp, if_pos hrp]
    · rw [if_neg hrp, if_neg hrp]
      exact congrFun (hlike r hr c hc) a
  · intro c hc
    simp only [pruneStep, hwrap, hwrap']
    rw [hsub, hlike child hc2 c hc, hlike p hpR c hc, hlog c hc]

/-- Folding `pruneStep` over a list of original children preserves agreement. -/
theorem foldl_pruneStep_rel {A : ℕ} (R R' C : ℕ) (par par' : ℕ → ℤ)
    (subMat subMat' : ℕ → Matrix (Fin A) (Fin A) ℝ) (l : List ℕ)
    (hl : ∀ x ∈ l, 1 ≤ x ∧ x < R)
    (hpar' : ∀ x, 1 ≤ x → x < R → par' x = par x)
    (hvalid : ∀ x, 1 ≤ x → x < R → 0 ≤ par x ∧ par x ≤ (x : ℤ))
    (hsub : ∀ x, 1 ≤ x → x < R → subMat' x = subMat x)
    {s t : PruneState A} (hrel : PruneRel R C s t) :
    PruneRel R C (l.foldl (fun s c => pruneStep R' par' subMat' c s) s)
      (l.foldl (fun s c => pruneStep R par subMat c s) t) := by
  induction l generalizing s t with
  | nil => exact hrel
  | cons x xs ih =>
      obtain ⟨hx1, hx2⟩ := hl x (List.mem_cons_self x xs)
      simp only [List.foldl_cons]
      exact ih (fun y hy => hl y (List.mem_cons_of_mem _ hy))
        (pruneStep_rel hx1 hx2 (hpar' x hx1 hx2) (hvalid x hx1 hx2).1
          (hvalid x hx1 hx2).2 (hsub x hx1 hx2) hrel)

/-- Core padding-invariance lemma: a run over `R'` rows whose rows `[R, R')`
are all-gap, self-parented, zero-branch-length padding rows, and whose rows
and columns `< R`, `< C` agree with the original input, computes the same
per-column log-likelihood on the original columns as the unpadded run. -/
theorem subLogLike_pad_invariant {A : ℕ} (R C R' : ℕ)
    (alignment align' : ℕ → ℕ → ℤ) (parentIndex par' : ℕ → ℤ)
    (distanceToParent d' : ℕ → ℝ) (subRate : Matrix (Fin A) (Fin A) ℝ)
    (rootProb : Fin A → ℝ)
    (hA : 0 < A) (hR : 0 < R) (hRR' : R ≤ R')
    (halign : ∀ r < R, ∀ c < C, align' r c = alignment r c)
    (halignPad : ∀ r, R ≤ r → r < R' → ∀ c, align' r c = -1)
    (hpar : ∀ r < R, par' r = parentIndex r)
    (hparPad : ∀ r, R ≤ r → r < R' → par' r = (r : ℤ))
    (hd : ∀ r < R, d' r = distanceToParent r)
    (hdPad : ∀ r, R ≤ r → r < R' → d' r = 0)
    (htree : ∀ r, 1 ≤ r → r < R → 0 ≤ parentIndex r ∧ parentIndex r ≤ (r : ℤ)) :
    ∀ c < C, subLogLike R' align' d' par' subRate rootProb c =
      subLogLike R alignment distanceToParent parentIndex subRate rootProb c := by
  intro c hc
  simp only [subLogLike, subLogLikeForMatrices]
  have h1 : 1 + (R - 1) = R := by omega
  have h2 : (R' - R) + (R - 1) = R' - 1 := by omega
  have hsplit : List.range' 1 (R' - 1) =
      List.range' 1 (R - 1) ++ List.range' R (R' - R) := by
    conv_lhs => rw [← h2]
    rw [← List.range'_append_1, h1]
  conv_lhs => rw [hsplit, List.reverse_append, List.foldl_append]
  have hphase1 : (List.range' R (R' - R)).reverse.foldl
      (fun s child => pruneStep R' par'
        (computeSubMatrixForBranchLengths d' subRate) child s)
      { like := fun r c' => tokenLookup A (align' r c'), logNorm := fun _ => 0 } =
      ({ like := fun r c' => tokenLookup A (align' r c'), logNorm := fun _ => 0 } :
        PruneState A) := by
    apply foldl_pruneStep_const R' par' _ hA
    intro child hchild
    rw [List.mem_reverse, List.mem_range'_1] at hchild
    have hcR : R ≤ child := hchild.1
    have hcR' : child < R' := by omega
    refine ⟨hparPad child hcR hcR', ?_, ?_⟩
    · unfold computeSubMatrixForBranchLengths
      rw [hdPad child hcR hcR', zero_smul, NormedSpace.exp_zero]
    · intro c' a
      simp only
      rw [halignPad child hcR hcR' c', tokenLookup_gap]
  rw [hphase1]
  have hrel0 : PruneRel R C
      ({ like := fun r c' => tokenLookup A (align' r c'), logNorm := fun _ => 0 } :
        PruneState A)
      ({ like := fun r c' => tokenLookup A (alignment r c'), logNorm := fun _ => 0 } :
        PruneState A) := by
    constructor
    · intro r hr c' hc'
      simp only
      rw [halign r hr c' hc']
    · intro c' _
      rfl
  have hrelF := foldl_pruneStep_rel R R' C parentIndex par'
    (computeSubMatrixForBranchLengths distanceToParent subRate)
    (computeSubMatrixForBranchLengths d' subRate)
    ((List.range' 1 (R - 1)).reverse)
    (by
      intro x hx
      rw [List.mem_reverse, List.mem_range'_1] at hx
      omega)
    (fun x hx1 hx2 => hpar x hx2)
    (fun x hx1 hx2 => htree x hx1 hx2)
    (by
      intro x hx1 hx2
      unfold computeSubMatrixForBranchLengths
      rw [hd x hx2])
    hrel0
  obtain ⟨hlikeF, hlogF⟩ := hrelF
  rw [hlogF c hc, hlikeF 0 hR c hc]

/-- Claim C1: for every valid (alignment, tree, substitution model) and every
padded shape, the per-column log-likelihood of `subLogLike` on the output of
`padAlignment`, restricted to the original columns (`c < C`), equals the
per-column log-likelihood of `subLogLike` on the unpadded input — exactly, in
real arithmetic.  The explicit `nRows`/`nCols` cover every row/column padding
multiplier: `padDimension` either pads up or leaves the shape unchanged, and
`hshape` only excludes the size combinations on which the python
`padAlignment` itself raises a shape error (`nRows < R` with `nCols > C`).
Validity is the spec's data-model invariant: tokens in `[-1, A)`, nonnegative
branch lengths, and a preorder tree rooted at node 0
(`0 ≤ parentIndex i ≤ i` for `i ≥ 1`, `parentIndex 0 = -1`). -/
theorem subLogLike_padAlignment_invariant {A : ℕ} (R C : ℕ)
    (alignment : ℕ → ℕ → ℤ) (parentIndex : ℕ → ℤ) (distanceToParent : ℕ → ℝ)
    (subRate : Matrix (Fin A) (Fin A) ℝ) (rootProb : Fin A → ℝ)
    (nRows nCols : ℕ) (c : ℕ)
    (hA : 0 < A) (hR : 0 < R) (hc : c < C)
    (hav : alignmentIsValid R C alignment A)
    (htv : treeIsValid R distanceToParent parentIndex)
    (hroot : ∀ r, 1 ≤ r → r < R → 0 ≤ parentIndex r)
    (hshape : R ≤ nRows ∨ nCols ≤ C) :
    subLogLike (padAlignment R C alignment parentIndex distanceToParent nRows nCols).2.2.2.1
      (padAlignment R C alignment parentIndex distanceToParent nRows nCols).1
      (padAlignment R C alignment parentIndex distanceToParent nRows nCols).2.2.1
      (padAlignment R C alignment parentIndex distanceToParent nRows nCols).2.1
      subRate rootProb c =
    subLogLike R alignment distanceToParent parentIndex subRate rootProb c := by
  obtain ⟨hd0, hpm1, hple⟩ := htv
  have htree : ∀ r, 1 ≤ r → r < R → 0 ≤ parentIndex r ∧ parentIndex r ≤ (r : ℤ) :=
    fun r h1 h2 => ⟨hroot r h1 h2, hple r h2⟩
  by_cases hrow : R < nRows
  · by_cases hcol : C < nCols
    · simp only [padAlignment, if_pos hrow, if_pos hcol]
      refine subLogLike_pad_invariant R C nRows alignment
        (fun r c' => if c' < C then (if r < R then alignment r c' else (-1 : ℤ)) else -1)
        parentIndex (fun r => if r < R then parentIndex r else (r : ℤ))
        distanceToParent (fun r => if r < R then distanceToParent r else 0)
        subRate rootProb hA hR (le_of_lt hrow) ?_ ?_ ?_ ?_ ?_ ?_ htree c hc
      · intro r hr c' hc'
        simp [hr, hc']
      · intro r hrR hrR' c'
        by_cases h : c' < C
        · simp [h, show ¬ r < R from by omega]
        · simp [h]
      · intro r hr
        simp [hr]
      · intro r hrR hrR'
        simp [show ¬ r < R from by omega]
      · intro r hr
        simp [hr]
      · intro r hrR hrR'
        simp [show ¬ r < R from by omega]
    · simp only [padAlignment, if_pos hrow, if_neg hcol]
      refine subLogLike_pad_invariant R C nRows alignment
        (fun r c' => if r < R then alignment r c' else (-1 : ℤ))
        parentIndex (fun r => if r < R then parentIndex r else (r : ℤ))
        distanceToParent (fun r => if r < R then distanceToParent r else 0)
        subRate rootProb hA hR (le_of_lt hrow) ?_ ?_ ?_ ?_ ?_ ?_ htree c hc
      · intro r hr c' hc'
        simp [hr]
      · intro r hrR hrR' c'
        simp [show ¬ r < R from by omega]
      · intro r hr
        simp [hr]
      · intro r hrR hrR'
        simp [show ¬ r < R from by omega]
      · intro r hr
        simp [hr]
      · intro r hrR hrR'
        simp [show ¬ r < R from by omega]
  · by_cases hcol : C < nCols
    · simp only [padAlignment, if_neg hrow, if_pos hcol]
      refine subLogLike_pad_invariant R C R alignment
        (fun r c' => if c' < C then alignment r c' else (-1 : ℤ))
        parentIndex parentIndex distanceToParent distanceToParent
        subRate rootProb hA hR (le_refl R) ?_ ?_ (fun r _ => rfl) ?_
        (fun r _ => rfl) ?_ htree c hc
      · intro r hr c' hc'
        simp [hc']
      · intro r hrR hrR'
        exact absurd hrR' (by omega)
      · intro r hrR hrR'
        exact absurd hrR' (by omega)
      · intro r hrR hrR'
        exact absurd hrR' (by omega)
    · simp only [padAlignment, if_neg hrow, if_neg hcol]

/-- Witness for C1 on a concrete valid one-row, one-column alignment padded to
shape (2, 2). -/
theorem subLogLike_padAlignment_invariant_witness :
    subLogLike
      (padAlignment 1 1 (fun _ _ => (0 : ℤ)) (fun _ => (-1 : ℤ)) (fun _ => (0 : ℝ)) 2 2).2.2.2.1
      (padAlignment 1 1 (fun _ _ => (0 : ℤ)) (fun _ => (-1 : ℤ)) (fun _ => (0 : ℝ)) 2 2).1
      (padAlignment 1 1 (fun _ _ => (0 : ℤ)) (fun _ => (-1 : ℤ)) (fun _ => (0 : ℝ)) 2 2).2.2.1
      (padAlignment 1 1 (fun _ _ => (0 : ℤ)) (fun _ => (-1 : ℤ)) (fun _ => (0 : ℝ)) 2 2).2.1
      (0 : Matrix (Fin 1) (Fin 1) ℝ) (fun _ => 1) 0 =
    subLogLike 1 (fun _ _ => (0 : ℤ)) (fun _ => (0 : ℝ)) (fun _ => (-1 : ℤ))
      (0 : Matrix (Fin 1) (Fin 1) ℝ) (fun _ => 1) 0 :=
  subLogLike_padAlignment_invariant 1 1 (fun _ _ => (0 : ℤ)) (fun _ => (-1 : ℤ))
    (fun _ => (0 : ℝ)) (0 : Matrix (Fin 1) (Fin 1) ℝ) (fun _ => 1) 2 2 0
    (by decide) (by decide) (by decide)
    (by constructor <;> decide)
    ⟨fun r _ => le_refl 0,
     fun r h1 h2 => absurd (Nat.lt_of_lt_of_le h2 h1) (Nat.lt_irrefl r),
     fun r _ => by show (-1 : ℤ) ≤ (r : ℤ); omega⟩
    (fun r h1 h2 => absurd (Nat.lt_of_lt_of_le h2 h1) (Nat.lt_irrefl r))
    (Or.inl (by decide))

/-! ### Claim C2: `subLogLike` and malformed input

`subLogLike` never invokes `alignmentIsValid`/`treeIsValid`; its own asserts
check only shapes and dtypes, which the embedding's types enforce.  On
malformed input it silently returns a numeric result (an out-of-range token is
clamped by the gather into `tokenLookup`). -/

/-- Counterexample to C2 as stated: for the malformed alignment whose single
token is `5` with `alphabetSize = 2` (rejected by `alignmentIsValid`),
`subLogLike` does not fail: it returns the numeric value `0`. -/
theorem subLogLike_malformed_counterexample :
    ¬ alignmentIsValid 1 1 (fun _ _ => (5 : ℤ)) 2 ∧
    subLogLike 1 (fun _ _ => (5 : ℤ)) (fun _ => (0 : ℝ)) (fun _ => (-1 : ℤ))
      (0 : Matrix (Fin 2) (Fin 2) ℝ) ![0, 1] 0 = 0 := by
  constructor
  · unfold alignmentIsValid
    decide
  · have htok : tokenLookup 2 5 = fun a : Fin 2 => if (a : ℤ) = 1 then (1 : ℝ) else 0 := by
      funext a
      have h : max 0 (min ((5 : ℤ) + 1) ((2 : ℕ) : ℤ)) = 2 := by omega
      simp [tokenLookup, h]
    simp [subLogLike, subLogLikeForMatrices, htok, Fin.sum_univ_two]

/-- Claim C2 (amended): the validator functions `alignmentIsValid` and
`treeIsValid` do reject every malformed input of the three kinds (out-of-range
token, negative branch length, `parentIndex[i] > i`), but they are separate
helpers that `subLogLike` never calls: `subLogLike` itself returns a numeric
result on malformed input rather than failing. -/
theorem validators_reject_malformed :
    (∀ (R C : ℕ) (alignment : ℕ → ℕ → ℤ) (A : ℕ) (r c : ℕ), r < R → c < C →
      (alignment r c < -1 ∨ (A : ℤ) ≤ alignment r c) →
      ¬ alignmentIsValid R C alignment A) ∧
    (∀ (R : ℕ) (d : ℕ → ℝ) (p : ℕ → ℤ) (r : ℕ), r < R →
      (d r < 0 → ¬ treeIsValid R d p) ∧ ((r : ℤ) < p r → ¬ treeIsValid R d p)) := by
  constructor
  · rintro R C alignment A r c hr hc (hlo | hhi) ⟨h1, h2⟩
    · exact absurd (h1 r hr c hc) (by omega)
    · exact absurd (h2 r hr c hc) (by omega)
  · intro R d p r hr
    constructor
    · rintro hneg ⟨h1, _, _⟩
      exact absurd (h1 r hr) (by linarith)
    · rintro hgt ⟨_, _, h3⟩
      exact absurd (h3 r hr) (by omega)

/-- Witness for the amended C2 on concrete malformed inputs. -/
theorem validators_reject_malformed_witness :
    ¬ alignmentIsValid 1 1 (fun _ _ => (5 : ℤ)) 2 ∧
    ¬ treeIsValid 1 (fun _ => (-1 : ℝ)) (fun _ => (0 : ℤ)) :=
  ⟨validators_reject_malformed.1 1 1 (fun _ _ => 5) 2 0 0 (by decide) (by decide)
      (Or.inr (by decide)),
   (validators_reject_malformed.2 1 (fun _ => (-1 : ℝ)) (fun _ => 0) 0 (by decide)).1
      (by norm_num)⟩

/-! ### Claims C5 and C10: the discretized branch-length cache

Helper facts about the default grid `geomspace(1e-3, 10, 400)`. -/

/-- The `i`-th point of the default geometric grid. -/
noncomputable def gridPoint (i : ℕ) : ℝ := 1e-3 * ((10 : ℝ) / 1e-3) ^ ((i : ℝ) / 399)

theorem geomspace_default :
    geomspace 1e-3 10 400 = (List.range 400).map gridPoint := by
  unfold geomspace gridPoint
  refine congrArg (fun f => (List.range 400).map f) (funext fun i => ?_)
  norm_num

theorem gridPoint_pos (i : ℕ) : 0 < gridPoint i := by
  unfold gridPoint
  have h : (0 : ℝ) < (10 : ℝ) / 1e-3 := by norm_num
  positivity

theorem gridRatio_gt_one : (1 : ℝ) < (10 : ℝ) / 1e-3 := by norm_num

theorem gridPoint_le {i j : ℕ} (h : i ≤ j) : gridPoint i ≤ gridPoint j := by
  unfold gridPoint
  refine mul_le_mul_of_nonneg_left ?_ (by norm_num)
  refine (Real.rpow_le_rpow_left_iff gridRatio_gt_one).mpr ?_
  have : (i : ℝ) ≤ (j : ℝ) := Nat.cast_le.mpr h
  linarith

theorem gridPoint_lt {i j : ℕ} (h : i < j) : gridPoint i < gridPoint j := by
  unfold gridPoint
  refine mul_lt_mul_of_pos_left ?_ (by norm_num)
  refine (Real.rpow_lt_rpow_left_iff gridRatio_gt_one).mpr ?_
  have : (i : ℝ) < (j : ℝ) := Nat.cast_lt.mpr h
  linarith

theorem gridPoint_zero : gridPoint 0 = 1e-3 := by
  unfold gridPoint
  norm_num

theorem gridPoint_last : gridPoint 399 = 10 := by
  unfold gridPoint
  rw [show ((399 : ℕ) : ℝ) / 399 = 1 from by norm_num, Real.rpow_one]
  norm_num

theorem countP_le_range (k n : ℕ) (hk : k < n) :
    List.countP (fun i => decide (i ≤ k)) (List.range n) = k + 1 := by
  rw [show n = (k + 1) + (n - (k + 1)) from by omega, List.range_add, List.countP_append]
  have h1 : List.countP (fun i => decide (i ≤ k)) (List.range (k + 1)) = k + 1 := by
    rw [List.countP_eq_length.mpr, List.length_range]
    intro a ha
    rw [List.mem_range] at ha
    simp
    omega
  have h2 : List.countP (fun i => decide (i ≤ k))
      ((List.range (n - (k + 1))).map (fun x => (k + 1) + x)) = 0 := by
    rw [List.countP_map, List.countP_eq_zero.mpr]
    intro a _
    simp
    omega
  rw [h1, h2]

theorem digitize_gridPoint (k : ℕ) (hk : k < 400) :
    digitize (gridPoint k) (geomspace 1e-3 10 400) = k + 1 := by
  rw [geomspace_default]
  unfold digitize
  rw [List.countP_map]
  have hcongr : List.countP ((fun b => decide (b ≤ gridPoint k)) ∘ gridPoint)
      (List.range 400) =
      List.countP (fun i => decide (i ≤ k)) (List.range 400) := by
    apply List.countP_congr
    intro i _
    simp only [Function.comp_apply, decide_eq_true_eq]
    constructor
    · intro h
      by_contra hh
      push_neg at hh
      exact absurd h (not_le.mpr (gridPoint_lt hh))
    · exact fun h => gridPoint_le h
  rw [hcongr]
  exact countP_le_range k 400 hk

theorem clip_gridPoint (k : ℕ) (hk : k < 400) :
    min (max (gridPoint k) 1e-3) 10 = gridPoint k := by
  rw [max_eq_left (by rw [← gridPoint_zero]; exact gridPoint_le (Nat.zero_le k)),
    min_eq_left (by rw [← gridPoint_last]; exact gridPoint_le (by omega))]

theorem discretize_gridPoint (k : ℕ) (hk : k < 400) :
    discretizeBranchLength (gridPoint k) defaultDiscretizationParams = k + 2 := by
  unfold discretizeBranchLength defaultDiscretizationParams
  rw [if_neg (ne_of_gt (gridPoint_pos k))]
  simp only
  rw [clip_gridPoint k hk, digitize_gridPoint k hk]
  omega

theorem getDiscretizedTimes_length :
    (getDiscretizedTimes defaultDiscretizationParams).length = 401 := by
  unfold getDiscretizedTimes geomspace defaultDiscretizationParams
  simp only [List.length_cons, List.length_map, List.length_range]

theorem getDiscretizedTimes_getD_succ (k : ℕ) (hk : k < 400) :
    (getDiscretizedTimes defaultDiscretizationParams).getD (k + 1) 0 = gridPoint k := by
  unfold getDiscretizedTimes defaultDiscretizationParams
  simp only
  rw [List.getD_cons_succ, geomspace_default, List.getD_eq_getElem?_getD,
    List.getElem?_map, List.getElem?_range hk]
  rfl

/-- Any positive branch length discretizes to an index `≥ 2`: the clipped time
is at least `tMin`, which is the first grid edge. -/
theorem discretize_pos_ge_two (t : ℝ) (ht : 0 < t) :
    2 ≤ discretizeBranchLength t defaultDiscretizationParams := by
  unfold discretizeBranchLength defaultDiscretizationParams
  rw [if_neg (ne_of_gt ht)]
  simp only
  have h1 : 1 ≤ digitize (min (max t 1e-3) 10) (geomspace 1e-3 10 400) := by
    unfold digitize
    refine List.countP_pos_iff.mpr ⟨gridPoint 0, ?_, ?_⟩
    · rw [geomspace_default]
      exact List.mem_map.mpr ⟨0, List.mem_range.mpr (by norm_num), rfl⟩
    · rw [gridPoint_zero]
      simp only [decide_eq_true_eq]
      exact le_min (le_max_right t 1e-3) (by norm_num)
  omega

/-- Any branch length `≥ tMax` discretizes to index `nSteps + 1 = 401`, one
past the last valid index of the 401-entry table. -/
theorem discretize_ge_tMax (t : ℝ) (ht : 10 ≤ t) :
    discretizeBranchLength t defaultDiscretizationParams = 401 := by
  unfold discretizeBranchLength defaultDiscretizationParams
  rw [if_neg (ne_of_gt (lt_of_lt_of_le (by norm_num) ht))]
  simp only
  have hclip : min (max t 1e-3) 10 = 10 := by
    rw [max_eq_left (le_trans (by norm_num) ht)]
    exact min_eq_right ht
  rw [hclip]
  have hdig : digitize 10 (geomspace 1e-3 10 400) = 400 := by
    unfold digitize
    rw [geomspace_default, List.countP_map, List.countP_eq_length.mpr, List.length_range]
    intro i hi
    rw [List.mem_range] at hi
    simp only [Function.comp_apply, decide_eq_true_eq]
    rw [← gridPoint_last]
    exact gridPoint_le (by omega)
  rw [hdig]

/-- The table entry `j` is the directly computed matrix at grid time `j`. -/
theorem table_getD {A : ℕ} (subRate : Matrix (Fin A) (Fin A) ℝ) (j : ℕ) (hj : j < 401) :
    (computeSubMatrixForDiscretizedTimes subRate defaultDiscretizationParams).getD j 0 =
    NormedSpace.exp ℝ
      (((getDiscretizedTimes defaultDiscretizationParams).getD j 0) • subRate) := by
  unfold computeSubMatrixForDiscretizedTimes
  have hlen : j < (getDiscretizedTimes defaultDiscretizationParams).length := by
    rw [getDiscretizedTimes_length]; exact hj
  rw [List.getD_eq_getElem?_getD, List.getElem?_map, List.getElem?_eq_getElem hlen]
  rw [List.getD_eq_getElem?_getD, List.getElem?_eq_getElem hlen]
  rfl

/-- The discretized lookup at the grid boundary time with table index
`k ∈ [1, 400)` returns the table entry `k + 1` — the matrix of the *next*
grid time, not of the queried one. -/
theorem lookup_at_grid {A : ℕ} (subRate : Matrix (Fin A) (Fin A) ℝ) (k : ℕ)
    (hk1 : 1 ≤ k) (hk2 : k < 400) :
    computeSubMatrixForDiscretizedBranchLengths
      ((getDiscretizedTimes defaultDiscretizationParams).getD k 0)
      (computeSubMatrixForDiscretizedTimes subRate defaultDiscretizationParams)
      defaultDiscretizationParams =
    (computeSubMatrixForDiscretizedTimes subRate defaultDiscretizationParams).getD
      (k + 1) 0 := by
  obtain ⟨j, rfl⟩ : ∃ j, k = j + 1 := ⟨k - 1, by omega⟩
  rw [getDiscretizedTimes_getD_succ j (by omega)]
  unfold computeSubMatrixForDiscretizedBranchLengths
  rw [discretize_gridPoint j (by omega)]
  have hlen : (computeSubMatrixForDiscretizedTimes subRate
      defaultDiscretizationParams).length = 401 := by
    unfold computeSubMatrixForDiscretizedTimes
    rw [List.length_map, getDiscretizedTimes_length]
  rw [hlen]
  congr 1
  omega

/-- Claim C10: for every positive branch length the discretized index is `≥ 2`
(so the table entry `1`, the grid time `tMin`, is never selected); for every
branch length `≥ tMax = 10` the index is `nSteps + 1 = 401`, one past the last
valid index `400` of the `nSteps + 1 = 401`-entry table, so the lookup stays
in bounds only because the gather clamps the index. -/
theorem discretizeBranchLength_bounds :
    (∀ t : ℝ, 0 < t → 2 ≤ discretizeBranchLength t defaultDiscretizationParams) ∧
    (∀ t : ℝ, 10 ≤ t → discretizeBranchLength t defaultDiscretizationParams = 400 + 1) ∧
    (getDiscretizedTimes defaultDiscretizationParams).length = 400 + 1 :=
  ⟨discretize_pos_ge_two, discretize_ge_tMax, getDiscretizedTimes_length⟩

/-- Witness for C10 at `t = 1` and `t = 10`. -/
theorem discretizeBranchLength_bounds_witness :
    2 ≤ discretizeBranchLength 1 defaultDiscretizationParams ∧
    discretizeBranchLength 10 defaultDiscretizationParams = 400 + 1 :=
  ⟨discretizeBranchLength_bounds.1 1 one_pos,
   discretizeBranchLength_bounds.2.1 10 (le_refl 10)⟩

/-- Counterexample to C5 as stated: for the 1×1 rate matrix `Q = [[-1]]` and
the branch length falling exactly on the grid boundary `tMin` (table index 1),
the discretized lookup returns a matrix different from the directly-computed
matrix at that same grid time (it returns the next grid time's matrix). -/
theorem discretized_lookup_counterexample :
    computeSubMatrixForDiscretizedBranchLengths
      ((getDiscretizedTimes defaultDiscretizationParams).getD 1 0)
      (computeSubMatrixForDiscretizedTimes
        (Matrix.diagonal (fun _ : Fin 1 => (-1 : ℝ))) defaultDiscretizationParams)
      defaultDiscretizationParams ≠
    (computeSubMatrixForDiscretizedTimes
      (Matrix.diagonal (fun _ : Fin 1 => (-1 : ℝ))) defaultDiscretizationParams).getD 1 0 := by
  rw [lookup_at_grid _ 1 (le_refl 1) (by norm_num)]
  rw [table_getD _ 2 (by norm_num), table_getD _ 1 (by norm_num)]
  rw [getDiscretizedTimes_getD_succ 1 (by norm_num),
    getDiscretizedTimes_getD_succ 0 (by norm_num)]
  intro heq
  rw [← Matrix.diagonal_smul, ← Matrix.diagonal_smul, Matrix.exp_diagonal,
    Matrix.exp_diagonal] at heq
  have h00 := congrFun (congrFun heq 0) 0
  simp only [Matrix.diagonal_apply_eq] at h00
  rw [Pi.exp_def, Pi.exp_def] at h00
  simp only [Pi.smul_apply, smul_eq_mul] at h00
  rw [← Real.exp_eq_exp_ℝ] at h00
  have hinj := Real.exp_injective h00
  have hne : gridPoint 1 = gridPoint 0 := by linarith
  exact absurd hne (ne_of_gt (gridPoint_lt Nat.zero_lt_one))

/-- Claim C5 (amended): the `t = 0` lookup returns the designated zero-time
entry (table index 0), and the `t = tMax = 10` lookup returns the `tMax` entry
(table index 400, via index clamping); but at every interior grid boundary
(table index `1 ≤ k < 400`) the lookup returns the table entry `k + 1`, the
directly-computed matrix of the *next* grid time, because `digitize` maps a
boundary value into the following bucket. -/
theorem discretized_lookup_amended {A : ℕ} (subRate : Matrix (Fin A) (Fin A) ℝ)
    (k : ℕ) (hk1 : 1 ≤ k) (hk2 : k < 400) :
    (computeSubMatrixForDiscretizedBranchLengths
        ((getDiscretizedTimes defaultDiscretizationParams).getD k 0)
        (computeSubMatrixForDiscretizedTimes subRate defaultDiscretizationParams)
        defaultDiscretizationParams =
      (computeSubMatrixForDiscretizedTimes subRate defaultDiscretizationParams).getD
        (k + 1) 0) ∧
    (computeSubMatrixForDiscretizedBranchLengths 0
        (computeSubMatrixForDiscretizedTimes subRate defaultDiscretizationParams)
        defaultDiscretizationParams =
      (computeSubMatrixForDiscretizedTimes subRate defaultDiscretizationParams).getD 0 0) ∧
    (computeSubMatrixForDiscretizedBranchLengths 10
        (computeSubMatrixForDiscretizedTimes subRate defaultDiscretizationParams)
        defaultDiscretizationParams =
      (computeSubMatrixForDiscretizedTimes subRate defaultDiscretizationParams).getD
        400 0) := by
  have hlen : (computeSubMatrixForDiscretizedTimes subRate
      defaultDiscretizationParams).length = 401 := by
    unfold computeSubMatrixForDiscretizedTimes
    rw [List.length_map, getDiscretizedTimes_length]
  refine ⟨lookup_at_grid subRate k hk1 hk2, ?_, ?_⟩
  · unfold computeSubMatrixForDiscretizedBranchLengths
    have h0 : discretizeBranchLength 0 defaultDiscretizationParams = 0 := by
      unfold discretizeBranchLength
      rw [if_pos rfl]
    rw [h0]
    simp
  · unfold computeSubMatrixForDiscretizedBranchLengths
    rw [discretize_ge_tMax 10 (le_refl 10), hlen]
    norm_num

/-- Witness for the amended C5 at table index `k = 1` with the zero rate
matrix. -/
theorem discretized_lookup_amended_witness :
    (computeSubMatrixForDiscretizedBranchLengths
        ((getDiscretizedTimes defaultDiscretizationParams).getD 1 0)
        (computeSubMatrixForDiscretizedTimes (0 : Matrix (Fin 1) (Fin 1) ℝ)
          defaultDiscretizationParams)
        defaultDiscretizationParams =
      (computeSubMatrixForDiscretizedTimes (0 : Matrix (Fin 1) (Fin 1) ℝ)
        defaultDiscretizationParams).getD 2 0) ∧
    (computeSubMatrixForDiscretizedBranchLengths 0
        (computeSubMatrixForDiscretizedTimes (0 : Matrix (Fin 1) (Fin 1) ℝ)
          defaultDiscretizationParams)
        defaultDiscretizationParams =
      (computeSubMatrixForDiscretizedTimes (0 : Matrix (Fin 1) (Fin 1) ℝ)
        defaultDiscretizationParams).getD 0 0) ∧
    (computeSubMatrixForDiscretizedBranchLengths 10
        (computeSubMatrixForDiscretizedTimes (0 : Matrix (Fin 1) (Fin 1) ℝ)
          defaultDiscretizationParams)
        defaultDiscretizationParams =
      (computeSubMatrixForDiscretizedTimes (0 : Matrix (Fin 1) (Fin 1) ℝ)
        defaultDiscretizationParams).getD 400 0) :=
  discretized_lookup_amended (0 : Matrix (Fin 1) (Fin 1) ℝ) 1 (le_refl 1) (by norm_num)

/-! ## h20.py

The 3-state indel transition matrix.  Floats are modelled by reals; the
numerical ODE integrator (`integrateCounts = integrateCounts_diffrax`, a
library solver external to the repository) is passed to `transitionMatrix` as
an oracle parameter `integrateCounts : ℝ → IndelParams → (Fin 4 → ℝ)`; the
repository's own fixed-schedule RK4 routine (`integrateCounts_RK4` with a
caller-supplied `ts`) is embedded below and instantiates the oracle where a
concrete integrator is needed. -/

/-- `jnp.finfo('float32').smallest_normal`. -/
noncomputable def smallest_float32 : ℝ := (2 : ℝ) ^ (-(126 : ℤ))

/-- Indel parameters `(λ, μ, x, y)`: insertion rate, deletion rate,
insertion-extension probability, deletion-extension probability. -/
def IndelParams : Type := ℝ × ℝ × ℝ × ℝ

/-- `lm(t, rate, prob) = exp(-rate * t / (1 - prob))`. -/
noncomputable def lm (t rate prob : ℝ) : ℝ := Real.exp (-rate * t / (1 - prob))

/-- `indels(t, rate, prob) = 1 / lm(t, rate, prob) - 1`. -/
noncomputable def indels (t rate prob : ℝ) : ℝ := 1 / lm t rate prob - 1

/-- `derivs(t, counts, indelParams)`: the derivative of the counts
`(a, b, u, q)`, with the degenerate closed form when the denominator is not
positive (`jnp.where` computes both branches and selects; the `denom` and
`one_minus_m` guards are kept as in the source). -/
noncomputable def derivs (t : ℝ) (counts : Fin 4 → ℝ) (indelParams : IndelParams) :
    Fin 4 → ℝ :=
  let lam := indelParams.1
  let mu := indelParams.2.1
  let x := indelParams.2.2.1
  let y := indelParams.2.2.2
  let a := counts 0
  let b := counts 1
  let u := counts 2
  let q := counts 3
  let L := lm t lam x
  let M := lm t mu y
  let num := mu * (b * M + q * (1 - M))
  let unsafe_denom := M * (1 - y) + L * q * y + L * M * (y * (1 + b - q) - 1)
  let denom := if unsafe_denom > 0 then unsafe_denom else 1
  let one_minus_m := if M < 1 then 1 - M else smallest_float32
  if unsafe_denom > 0 then
    ![mu * b * u * L * M * (1 - y) / denom - (lam + mu) * a,
      -b * num * L / denom + lam * (1 - b),
      -u * num * L / denom + lam * a,
      ((M * (1 - L) - q * L * (1 - M)) * num / denom - q * lam / (1 - y)) / one_minus_m]
  else ![-lam - mu, lam, lam, 0]

/-- `initCounts(indelParams) = (1, 0, 0, 0)`. -/
noncomputable def initCounts (_indelParams : IndelParams) : Fin 4 → ℝ := ![1, 0, 0, 0]

/-- One step of the classical RK4 update (`RK4body` in `integrateCounts_RK4`). -/
noncomputable def RK4body (indelParams : IndelParams) (y : Fin 4 → ℝ) (t dt : ℝ) :
    Fin 4 → ℝ :=
  let k1 := derivs t y indelParams
  let k2 := derivs (t + dt / 2) (fun i => y i + dt * k1 i / 2) indelParams
  let k3 := derivs (t + dt / 2) (fun i => y i + dt * k2 i / 2) indelParams
  let k4 := derivs (t + dt) (fun i => y i + dt * k3 i) indelParams
  fun i => y i + dt * (k1 i + 2 * k2 i + 2 * k3 i + k4 i) / 6

/-- `jnp.ediff1d`: consecutive differences of a vector. -/
noncomputable def ediff1d (ts : List ℝ) : List ℝ :=
  (ts.zip ts.tail).map (fun p => p.2 - p.1)

/-- `integrateCounts_RK4(t, indelParams, ts=ts)`: the `lax.scan` of `RK4body`
over `(ts[:-1], ediff1d(ts))` from `initCounts`, on the code path where the
evaluation schedule `ts` is supplied by the caller. -/
noncomputable def integrateCounts_RK4_ts (indelParams : IndelParams) (ts : List ℝ) :
    Fin 4 → ℝ :=
  (ts.dropLast.zip (ediff1d ts)).foldl
    (fun y tdt => RK4body indelParams y tdt.1 tdt.2) (initCounts indelParams)

/-- `zeroTimeTransitionMatrix(indelParams)`. -/
noncomputable def zeroTimeTransitionMatrix (indelParams : IndelParams) :
    Fin 3 → Fin 3 → ℝ :=
  let x := indelParams.2.2.1
  let y := indelParams.2.2.2
  ![![1, 0, 0],
    ![1 - x, x, 0],
    ![1 - y, 0, y]]

/-- `transitionMatrixFromCounts(t, indelParams, counts, norm=True)`: the 3×3
matrix built from the counts, negative entries clipped to 0 and rows
renormalized when `norm` is set. -/
noncomputable def transitionMatrixFromCounts (t : ℝ) (indelParams : IndelParams)
    (counts : Fin 4 → ℝ) (norm : Bool) : Fin 3 → Fin 3 → ℝ :=
  let lam := indelParams.1
  let mu := indelParams.2.1
  let x := indelParams.2.2.1
  let y := indelParams.2.2.2
  let a := counts 0
  let b := counts 1
  let u := counts 2
  let q := counts 3
  let L := lm t lam x
  let M := lm t mu y
  let one_minus_L := if L < 1 then 1 - L else smallest_float32
  let one_minus_M := if M < 1 then 1 - M else smallest_float32
  let mx : Fin 3 → Fin 3 → ℝ :=
    ![![a, b, 1 - a - b],
      ![u * L / one_minus_L, 1 - (b + q * (1 - M) / M) * L / one_minus_L,
        (b + q * (1 - M) / M - u) * L / one_minus_L],
      ![(1 - a - u) * M / one_minus_M, q, 1 - q - (1 - a - u) * M / one_minus_M]]
  if norm then (fun i j => max 0 (mx i j) / (∑ k, max 0 (mx i k))) else mx

/-- `smallTimeTransitionMatrix(t, indelParams, **kwargs)`: integrate the
counts ODE (here: ask the integrator oracle) and convert. -/
noncomputable def smallTimeTransitionMatrix
    (integrateCounts : ℝ → IndelParams → (Fin 4 → ℝ)) (t : ℝ)
    (indelParams : IndelParams) (norm : Bool) : Fin 3 → Fin 3 → ℝ :=
  transitionMatrixFromCounts t indelParams (integrateCounts t indelParams) norm

/-- `largeTimeTransitionMatrix(t, indelParams)`. -/
noncomputable def largeTimeTransitionMatrix (t : ℝ) (indelParams : IndelParams) :
    Fin 3 → Fin 3 → ℝ :=
  let g := 1 - lm t indelParams.1 indelParams.2.2.1
  let r := 1 - lm t indelParams.2.1 indelParams.2.2.2
  ![![(1 - g) * (1 - r), g, (1 - g) * r],
    ![(1 - g) * (1 - r), g, (1 - g) * r],
    ![1 - r, 0, r]]

/-- `alignmentIsProbablyUndetectable(t, indelParams, alphabetSize)`:
`jnp.where(t > 0, cond, False)` becomes the conjunction `0 < t ∧ cond`.
At `μ = 0` the float `expectedMatchRunLength` is `+inf` and
`alphabetSize ** inf` is `inf` (for alphabet sizes `> 1`), making the
comparison False; in the real embedding the division by zero yields `0` and
`alphabetSize ^ 0 = 1`, and the comparison `1 > 2` is likewise False, so the
branch outcome agrees. -/
noncomputable def alignmentIsProbablyUndetectable (t : ℝ) (indelParams : IndelParams)
    (alphabetSize : ℝ) : Prop :=
  let lam := indelParams.1
  let mu := indelParams.2.1
  let x := indelParams.2.2.1
  let y := indelParams.2.2.2
  let expectedMatchRunLength := 1 / (1 - Real.exp (-mu * t))
  let expectedInsertions := indels t lam x
  let expectedDeletions := indels t mu y
  let kappa : ℝ := 2
  0 < t ∧ (expectedInsertions + 1) * (expectedDeletions + 1) >
    kappa * alphabetSize ^ expectedMatchRunLength

/-- Module-level `tMin = 1e-3` of `h20.py`. -/
noncomputable def tMin : ℝ := 1e-3

/-- `transitionMatrix(t, indelParams, alphabetSize=20, **kwargs)`: clamp `t`
to `tMin`, then select among the three regimes (`jnp.where` computes both
branches and selects by the predicate). -/
noncomputable def transitionMatrix (integrateCounts : ℝ → IndelParams → (Fin 4 → ℝ))
    (t : ℝ) (indelParams : IndelParams) (alphabetSize : ℝ) (norm : Bool) :
    Fin 3 → Fin 3 → ℝ :=
  let tSafe := max t tMin
  if 0 < t then
    (if alignmentIsProbablyUndetectable tSafe indelParams alphabetSize then
      largeTimeTransitionMatrix tSafe indelParams
     else smallTimeTransitionMatrix integrateCounts tSafe indelParams norm)
  else zeroTimeTransitionMatrix indelParams

/-! ### Claim C3: `transitionMatrix` is row-stochastic in all three regimes -/

theorem lm_pos (t rate prob : ℝ) : 0 < lm t rate prob := Real.exp_pos _

theorem lm_le_one {t rate prob : ℝ} (hrate : 0 ≤ rate) (ht : 0 ≤ t) (hprob : prob < 1) :
    lm t rate prob ≤ 1 := by
  unfold lm
  apply Real.exp_le_one_iff.mpr
  apply div_nonpos_of_nonpos_of_nonneg
  · have := mul_nonneg hrate ht
    linarith
  · linarith

theorem zeroTime_row_stochastic (lam mu x y : ℝ)
    (hx0 : 0 ≤ x) (hx1 : x ≤ 1) (hy0 : 0 ≤ y) (hy1 : y ≤ 1) :
    ∀ i, (∀ j, 0 ≤ zeroTimeTransitionMatrix (lam, mu, x, y) i j) ∧
      (∑ j, zeroTimeTransitionMatrix (lam, mu, x, y) i j) = 1 := by
  intro i
  constructor
  · intro j
    fin_cases i <;> fin_cases j <;> simp [zeroTimeTransitionMatrix] <;> linarith
  · fin_cases i <;> simp [zeroTimeTransitionMatrix, Fin.sum_univ_three]

theorem largeTime_row_stochastic (t lam mu x y : ℝ)
    (hlam : 0 ≤ lam) (hmu : 0 ≤ mu) (hx1 : x < 1) (hy1 : y < 1) (ht : 0 ≤ t) :
    ∀ i, (∀ j, 0 ≤ largeTimeTransitionMatrix t (lam, mu, x, y) i j) ∧
      (∑ j, largeTimeTransitionMatrix t (lam, mu, x, y) i j) = 1 := by
  have hgx : lm t lam x ≤ 1 := lm_le_one hlam ht hx1
  have hgx0 : 0 < lm t lam x := lm_pos t lam x
  have hgy : lm t mu y ≤ 1 := lm_le_one hmu ht hy1
  have hgy0 : 0 < lm t mu y := lm_pos t mu y
  intro i
  constructor
  · intro j
    fin_cases i <;> fin_cases j <;>
      simp [largeTimeTransitionMatrix] <;> nlinarith
  · fin_cases i <;> simp [largeTimeTransitionMatrix, Fin.sum_univ_three] <;> ring

/-- Clipping to `0` and renormalizing a row whose unnormalized sum is `1`
yields nonnegative entries summing to `1` (the clipped sum is `≥ 1 > 0`). -/
theorem normRow_stochastic {mx : Fin 3 → Fin 3 → ℝ} (i : Fin 3)
    (hsum : (∑ j, mx i j) = 1) :
    (∀ j, 0 ≤ max 0 (mx i j) / (∑ k, max 0 (mx i k))) ∧
    (∑ j, max 0 (mx i j) / (∑ k, max 0 (mx i k))) = 1 := by
  have hS : (1 : ℝ) ≤ ∑ k, max 0 (mx i k) := by
    rw [← hsum]
    exact Finset.sum_le_sum (fun k _ => le_max_right 0 (mx i k))
  have hSpos : (0 : ℝ) < ∑ k, max 0 (mx i k) := lt_of_lt_of_le one_pos hS
  constructor
  · intro j
    exact div_nonneg (le_max_left 0 _) (le_of_lt hSpos)
  · rw [← Finset.sum_div, div_self (ne_of_gt hSpos)]

theorem transitionMatrixFromCounts_row_stochastic (t : ℝ) (p : IndelParams)
    (counts : Fin 4 → ℝ) :
    ∀ i, (∀ j, 0 ≤ transitionMatrixFromCounts t p counts true i j) ∧
      (∑ j, transitionMatrixFromCounts t p counts true i j) = 1 := by
  intro i
  simp only [transitionMatrixFromCounts, if_pos rfl]
  refine normRow_stochastic i ?_
  fin_cases i <;> rw [Fin.sum_univ_three] <;> simp <;> ring

/-- Claim C3: for every integrator, every indel parameter vector with
`λ, μ ≥ 0` and `x, y ∈ [0, 1)`, every alphabet size and every `t ≥ 0`, the
3×3 matrix returned by `transitionMatrix` has nonnegative entries and rows
summing to exactly 1 (hence within any tolerance), in all three regimes. -/
theorem transitionMatrix_row_stochastic
    (integrateCounts : ℝ → IndelParams → (Fin 4 → ℝ)) (lam mu x y alphabetSize t : ℝ)
    (hlam : 0 ≤ lam) (hmu : 0 ≤ mu) (hx0 : 0 ≤ x) (hx1 : x < 1)
    (hy0 : 0 ≤ y) (hy1 : y < 1) (ht : 0 ≤ t) :
    ∀ i, (∀ j, 0 ≤ transitionMatrix integrateCounts t (lam, mu, x, y) alphabetSize true i j) ∧
      (∑ j, transitionMatrix integrateCounts t (lam, mu, x, y) alphabetSize true i j) = 1 := by
  intro i
  simp only [transitionMatrix]
  by_cases h0 : 0 < t
  · rw [if_pos h0]
    by_cases hu : alignmentIsProbablyUndetectable (max t tMin) (lam, mu, x, y) alphabetSize
    · rw [if_pos hu]
      exact largeTime_row_stochastic (max t tMin) lam mu x y hlam hmu hx1 hy1
        (le_trans ht (le_max_left t tMin)) i
    · rw [if_neg hu]
      unfold smallTimeTransitionMatrix
      exact transitionMatrixFromCounts_row_stochastic (max t tMin) (lam, mu, x, y) _ i
  · rw [if_neg h0]
    exact zeroTime_row_stochastic lam mu x y hx0 (le_of_lt hx1) hy0 (le_of_lt hy1) i

/-- Witness for C3 at `t = 1`, zero indel parameters, alphabet size 20, with
the constant integrator oracle. -/
theorem transitionMatrix_row_stochastic_witness :
    (∀ j, 0 ≤ transitionMatrix (fun _ _ => initCounts (0, 0, 0, 0)) 1
        (0, 0, 0, 0) 20 true 0 j) ∧
      (∑ j, transitionMatrix (fun _ _ => initCounts (0, 0, 0, 0)) 1
        (0, 0, 0, 0) 20 true 0 j) = 1 :=
  transitionMatrix_row_stochastic (fun _ _ => initCounts (0, 0, 0, 0)) 0 0 0 0 20 1
    (le_refl 0) (le_refl 0) (le_refl 0) zero_lt_one (le_refl 0) zero_lt_one zero_le_one 0

/-! ### Claim C4: `transitionMatrix` with no indel activity -/

theorem lm_zero_rate (t prob : ℝ) : lm t 0 prob = 1 := by
  unfold lm
  simp

/-- With `λ = μ = 0` the counts derivative vanishes identically (in both
branches of the denominator guard), so the counts ODE's solution is constant. -/
theorem derivs_zero_params (t : ℝ) (counts : Fin 4 → ℝ) :
    derivs t counts (0, 0, 0, 0) = fun _ => 0 := by
  funext i
  unfold derivs
  by_cases h : lm t 0 0 * (1 - 0) + lm t 0 0 * counts 3 * 0 +
      lm t 0 0 * lm t 0 0 * (0 * (1 + counts 1 - counts 3) - 1) > 0
  · rw [if_pos h]
    fin_cases i <;> simp
  · rw [if_neg h]
    fin_cases i <;> simp

/-- An RK4 step of a vanishing derivative field is the identity. -/
theorem RK4body_zero_params (y : Fin 4 → ℝ) (t dt : ℝ) :
    RK4body (0, 0, 0, 0) y t dt = y := by
  unfold RK4body
  simp only [derivs_zero_params]
  funext i
  simp

/-- The embedded RK4 integrator returns the initial counts `(1,0,0,0)` for the
no-indel parameters, on any evaluation schedule. -/
theorem integrateCounts_RK4_ts_zero_params (ts : List ℝ) :
    integrateCounts_RK4_ts (0, 0, 0, 0) ts = initCounts (0, 0, 0, 0) := by
  unfold integrateCounts_RK4_ts
  have h : ∀ (l : List (ℝ × ℝ)) (y : Fin 4 → ℝ),
      l.foldl (fun y tdt => RK4body (0, 0, 0, 0) y tdt.1 tdt.2) y = y := by
    intro l
    induction l with
    | nil => intro y; rfl
    | cons p ps ih =>
        intro y
        rw [List.foldl_cons, RK4body_zero_params]
        exact ih y
  exact h _ _

/-- With no indel activity the undetectability test is false for every time
and alphabet size: the expected indel counts are `0` and the left side `1`
cannot exceed `κ · alphabetSize ^ emrl = 2`. -/
theorem undetectable_no_indel (ts alphabetSize : ℝ) :
    ¬ alignmentIsProbablyUndetectable ts (0, 0, 0, 0) alphabetSize := by
  unfold alignmentIsProbablyUndetectable indels
  rintro ⟨hts, hgt⟩
  rw [lm_zero_rate ts 0] at hgt
  simp only [neg_zero, zero_mul, Real.exp_zero, sub_self, div_zero, Real.rpow_zero,
    mul_one, one_div, inv_one] at hgt
  norm_num at hgt

/-- `transitionMatrixFromCounts` at the no-indel parameters and initial counts
is the 3×3 identity: `L = M = 1`, the `1-L`/`1-M` guards floor to the smallest
positive float, and every division they guard has a zero numerator. -/
theorem fromCounts_no_indel (ts : ℝ) :
    transitionMatrixFromCounts ts (0, 0, 0, 0) (initCounts (0, 0, 0, 0)) true =
    ![![1, 0, 0], ![0, 1, 0], ![0, 0, 1]] := by
  funext i j
  unfold transitionMatrixFromCounts initCounts
  rw [lm_zero_rate ts 0]
  fin_cases i <;> fin_cases j <;>
    simp [if_neg (lt_irrefl (1 : ℝ)), Fin.sum_univ_three, Matrix.vecHead, Matrix.vecTail]

/-- Evaluation of `transitionMatrix` at the no-indel parameters: for every
`t > 0` and every integrator consistent with the vanishing derivative field
(it returns the initial counts), the result is the identity matrix. -/
theorem transitionMatrix_no_indel_eval
    (integrateCounts : ℝ → IndelParams → (Fin 4 → ℝ)) (t alphabetSize : ℝ)
    (ht : 0 < t)
    (hI : integrateCounts (max t tMin) (0, 0, 0, 0) = initCounts (0, 0, 0, 0)) :
    transitionMatrix integrateCounts t (0, 0, 0, 0) alphabetSize true =
    ![![1, 0, 0], ![0, 1, 0], ![0, 0, 1]] := by
  simp only [transitionMatrix]
  rw [if_pos ht, if_neg (undetectable_no_indel _ _)]
  unfold smallTimeTransitionMatrix
  rw [hI]
  exact fromCounts_no_indel _

/-- Counterexample to C4 as stated: with the no-indel parameters
`(λ, μ, x, y) = (0, 0, 0, 0)` at `t = 1` (alphabet size 20), using the
repository's RK4 integrator on the schedule `[0, t/2, t]`, `transitionMatrix`
does **not** equal the zero-time matrix `[[1,0,0],[1,0,0],[1,0,0]]` (it is the
identity; they differ in the Insert row). -/
theorem transitionMatrix_no_indel_counterexample :
    transitionMatrix (fun t p => integrateCounts_RK4_ts p [0, t / 2, t]) 1
      (0, 0, 0, 0) 20 true ≠
    ![![1, 0, 0], ![1, 0, 0], ![1, 0, 0]] := by
  rw [transitionMatrix_no_indel_eval _ 1 20 one_pos (integrateCounts_RK4_ts_zero_params _)]
  intro h
  have h11 := congrFun (congrFun h 1) 1
  norm_num at h11

/-- Claim C4 (amended): for the no-indel parameters and every `t > 0`, every
alphabet size, and every integrator consistent with the (identically zero)
counts derivative field, `transitionMatrix` returns the **identity** matrix
`[[1,0,0],[0,1,0],[0,0,1]]`: its Match row agrees with the zero-time matrix
`[[1,0,0],[1,0,0],[1,0,0]]` claimed by the spec, but the rows for the
(unreachable) Insert and Delete states are `[0,1,0]` and `[0,0,1]`, not
`[1,0,0]`. -/
theorem transitionMatrix_no_indel_amended
    (integrateCounts : ℝ → IndelParams → (Fin 4 → ℝ)) (t alphabetSize : ℝ)
    (ht : 0 < t)
    (hI : integrateCounts (max t tMin) (0, 0, 0, 0) = initCounts (0, 0, 0, 0)) :
    transitionMatrix integrateCounts t (0, 0, 0, 0) alphabetSize true =
    ![![1, 0, 0], ![0, 1, 0], ![0, 0, 1]] :=
  transitionMatrix_no_indel_eval integrateCounts t alphabetSize ht hI

/-- Witness for the amended C4 at `t = 1` with the repository's RK4
integrator. -/
theorem transitionMatrix_no_indel_amended_witness :
    transitionMatrix (fun t p => integrateCounts_RK4_ts p [0, t / 2, t]) 1
      (0, 0, 0, 0) 20 true =
    ![![1, 0, 0], ![0, 1, 0], ![0, 0, 1]] :=
  transitionMatrix_no_indel_amended (fun t p => integrateCounts_RK4_ts p [0, t / 2, t])
    1 20 one_pos (integrateCounts_RK4_ts_zero_params _)

/-! ### Claim C9: clamping below `tMin` -/

/-- Claim C9: `transitionMatrix` is constant on `0 < t ≤ tMin = 1e-3`: every
positive-time regime (the undetectability test, the asymptotic matrix, and the
integrated matrix alike) is evaluated at `tSafe = max t tMin = tMin`, so the
result is exactly that of `t = tMin`. -/
theorem transitionMatrix_clamped_below_tMin
    (integrateCounts : ℝ → IndelParams → (Fin 4 → ℝ)) (indelParams : IndelParams)
    (alphabetSize : ℝ) (norm : Bool) (t : ℝ) (h0 : 0 < t) (hle : t ≤ tMin) :
    transitionMatrix integrateCounts t indelParams alphabetSize norm =
      transitionMatrix integrateCounts tMin indelParams alphabetSize norm := by
  have htMin : (0 : ℝ) < tMin := by unfold tMin; norm_num
  simp only [transitionMatrix]
  rw [max_eq_right hle, max_self, if_pos h0, if_pos htMin]

/-- Witness for C9 at `t = 1/2000 < tMin`. -/
theorem transitionMatrix_clamped_below_tMin_witness :
    transitionMatrix (fun _ _ => initCounts (0, 0, 0, 0)) (1 / 2000) (0, 0, 0, 0) 20 true =
      transitionMatrix (fun _ _ => initCounts (0, 0, 0, 0)) tMin (0, 0, 0, 0) 20 true :=
  transitionMatrix_clamped_below_tMin (fun _ _ => initCounts (0, 0, 0, 0)) (0, 0, 0, 0)
    20 true (1 / 2000) (by norm_num) (by unfold tMin; norm_num)

end Phylorian
